import Mathlib

/-!
Verification development for the mergelog Link Resolution & Aggregation
Engine (`src/main.rs`).  The Rust code is shallowly embedded: strings are
manipulated through `String.data : List Char` with structural functions
(core `String.trim` and friends are avoided because they do not reduce in
the kernel), machine integers become `Nat` with explicit range checks where
the source checks ranges, floating-point scores become `ℚ` (all scores are
quotients of naturals, and the source only compares them), panicking code
(`todo!`, `unreachable!`) and blocking reads that never receive acceptable
input are modelled with `Option`.  Interactive standard-input is modelled
as a list of operator input lines (without their trailing newline); a
prompt consumes a prefix of that list and returns the remainder.
-/

namespace Mergelog

/-- ASCII fragment of Rust `char::is_whitespace` (used by `str::trim`). -/
def isTrimWs (c : Char) : Bool :=
  c == ' ' || c == '\t' || c == '\n' || c == '\x0B' || c == '\x0C' || c == '\r'

/-- Rust `char::is_ascii_whitespace` (used by `split_ascii_whitespace`). -/
def isAsciiWs (c : Char) : Bool :=
  c == ' ' || c == '\t' || c == '\n' || c == '\x0C' || c == '\r'

/-- Rust `str::trim` on the character list: drop whitespace from both ends. -/
def trimChars (l : List Char) : List Char :=
  ((l.dropWhile isTrimWs).reverse.dropWhile isTrimWs).reverse

/-- Rust `str::trim` at the `String` boundary. -/
def strTrim (s : String) : String :=
  String.mk (trimChars s.data)

/-- Rust `str::strip_prefix`: `some` of the remainder when `p` is a prefix. -/
def stripLeading (s p : String) : Option String :=
  if p.data.isPrefixOf s.data then some (String.mk (s.data.drop p.data.length))
  else none

/-- `enum RepositoryHost` from the source. -/
inductive RepositoryHost where
  | GitHub
  | GitLab
  | Infer
deriving DecidableEq

/-- `struct Link { shorthand: String, full: String }` from the source. -/
structure Link where
  shorthand : String
  full : String
deriving DecidableEq

/-- `struct PullRequest { id: u64, link: String, title: String }` from the
source (one Request Catalog entry; `link` is the shorthand link). -/
structure PullRequest where
  id : Nat
  link : String
  title : String
deriving DecidableEq

/-- `fn make_pull_request_link`: derive the full link from the id for the
host.  The GitHub branch is `todo!()` and the `Infer` branch is
`unreachable!()` in the source; both are modelled as `none`. -/
def makePullRequestLink (id link : String) (host : RepositoryHost)
    (repoOwner repoName : String) : Option Link :=
  match host with
  | .GitHub => none
  | .GitLab =>
    some { shorthand := link,
           full := "https://gitlab.com/" ++ repoOwner ++ "/" ++ repoName ++
             "/-/merge_requests/" ++ id }
  | .Infer => none

/-- `fn prompt` from the source, driven by a list of operator input lines.
The source keeps one `String` buffer for the whole retry loop and
`read_line` appends each entered line (plus its newline) to that buffer
without clearing it; validation runs on the trimmed accumulated buffer.
An empty trimmed buffer returns the default when one exists, otherwise the
loop continues until the validator accepts.  `none` models the loop still
blocking on standard input after all supplied lines were consumed. -/
def promptRun (validate : String → Bool) (default : Option String) :
    String → List String → Option (String × List String)
  | _, [] => none
  | buffer, line :: rest =>
    let buffer1 := buffer ++ line ++ "\n"
    let trimmed := strTrim buffer1
    if trimmed.data.isEmpty then
      match default with
      | some d => some (d, rest)
      | none =>
        if validate trimmed then some (trimmed, rest)
        else promptRun validate default buffer1 rest
    else if validate trimmed then some (trimmed, rest)
    else promptRun validate default buffer1 rest

/-- Rust `str::parse::<u64>` : an optional leading `+`, then one or more
ASCII digits, value below `2 ^ 64`. -/
def parseU64 (s : String) : Option Nat :=
  let digits := match s.data with
    | '+' :: rest => rest
    | l => l
  if digits.isEmpty then none
  else if digits.all Char.isDigit then
    let value := digits.foldl (fun n c => n * 10 + (c.toNat - '0'.toNat)) 0
    if value < 2 ^ 64 then some value else none
  else none

/-- The `["y", "n"].contains(&value)` validator of the confirmation prompt. -/
def ynValidator (value : String) : Bool :=
  value == "y" || value == "n"

/-- The `!value.is_empty()` validator of the link and shorthand prompts. -/
def nonEmptyValidator (value : String) : Bool :=
  !value.data.isEmpty

/-- Substring containment, Rust `str::contains` on character lists. -/
def containsSub : List Char → List Char → Bool
  | [], pat => pat.isEmpty
  | c :: rest, pat => pat.isPrefixOf (c :: rest) || containsSub rest pat

/-- Rust `str::to_lowercase`, modelled on the ASCII range. -/
def lowerChars (l : List Char) : List Char :=
  l.map Char.toLower

/-- UTF-8 byte length of a character list (Rust `str::len` of a word). -/
def utf8LenChars (l : List Char) : Nat :=
  l.foldl (fun n c => n + c.utf8Size) 0

/-- Accumulator-based worker for `split_ascii_whitespace` (empty pieces are
skipped, exactly as in Rust). -/
def splitAsciiWsAux : List Char → List Char → List (List Char)
  | acc, [] => if acc.isEmpty then [] else [acc.reverse]
  | acc, c :: rest =>
    if isAsciiWs c then
      if acc.isEmpty then splitAsciiWsAux [] rest
      else acc.reverse :: splitAsciiWsAux [] rest
    else splitAsciiWsAux (c :: acc) rest

/-- Rust `str::split_ascii_whitespace().collect()`. -/
def splitAsciiWs (l : List Char) : List (List Char) :=
  splitAsciiWsAux [] l

/-- Fuel-driven Levenshtein distance (the `edit_distance` crate).  The fuel
argument only makes the recursion structural; every call site supplies
`a.length + b.length`, which is enough fuel for the recursion to finish, so
the fuel-exhausted fallback (which is only reachable with both lists empty,
where it is also correct) never changes the value. -/
def levAux : Nat → List Char → List Char → Nat
  | 0, xs, ys => xs.length + ys.length
  | _ + 1, [], ys => ys.length
  | _ + 1, x :: xs, [] => (x :: xs).length
  | fuel + 1, x :: xs, y :: ys =>
    if x == y then levAux fuel xs ys
    else 1 + min (levAux fuel xs (y :: ys)) (min (levAux fuel (x :: xs) ys) (levAux fuel xs ys))

/-- `edit_distance(a, b)`: Levenshtein distance over characters. -/
def levenshtein (a b : List Char) : Nat :=
  levAux (a.length + b.length) a b

/-- Stable insertion: place `a` before the first element `b` with
`le a b = true`.  Together with `insSort` this is the unique stable sort
for the comparator, which is how Rust's stable `sort_by` is embedded. -/
def orderedIns (le : α → α → Bool) (a : α) : List α → List α
  | [] => [a]
  | b :: l => if le a b then a :: b :: l else b :: orderedIns le a l

/-- Stable insertion sort: the embedding of Rust `sort_by` (a stable sort). -/
def insSort (le : α → α → Bool) : List α → List α
  | [] => []
  | a :: l => orderedIns le a (insSort le l)

/-- Per-request score of `fn guess_pull_request`: for each whitespace word
of the title, a `title.len() * 10` bonus when the lowercased candidate name
contains the lowercased word and the word is longer than one byte,
otherwise the edit distance between the title and the name; the sum is
divided by `title.len()` (by `1` when there are no words). -/
def guessCost (name : String) (pr : PullRequest) : ℚ :=
  let words := splitAsciiWs pr.title.data
  let distance : Nat :=
    (words.map fun word =>
      if containsSub (lowerChars name.data) (lowerChars word)
          && decide (1 < utf8LenChars word)
      then pr.title.utf8ByteSize * 10
      else levenshtein pr.title.data name.data).sum
  let normalizer : Nat := if words.isEmpty then 1 else pr.title.utf8ByteSize
  (distance : ℚ) / (normalizer : ℚ)

/-- `fn guess_pull_request`: score every catalog entry, sort the indexed
scores descending (stable), keep at most 5, and map indices back to the
entries (the indexed entry is carried alongside its index, which fuses the
final `&pull_requests[index]` lookup).  An empty catalog yields `none`. -/
def guessPullRequest (name : String) (pullRequests : List PullRequest) :
    Option (List PullRequest) :=
  let costs := pullRequests.enum.map fun ipr => (ipr, guessCost name ipr.2)
  if costs.isEmpty then none
  else
    some (((insSort (fun lhs rhs => decide (rhs.2 ≤ lhs.2)) costs).take 5).map
      fun c => c.1.2)

/-- `fn resolve_changelog_pr_interactive`.  Numeric file stems are looked up
in the catalog (first match by id); a miss asks the y/n confirmation prompt
(default `"y"`) and uses the prompt's answer as the link text.  Non-numeric
stems prompt for a link string; on GitLab a `"!"`-prefixed answer is used
as the id directly, anything else becomes the bare full link together with
a second prompt for the markdown shorthand.  GitHub branches are `todo!()`
and `Infer` is `unreachable!()`, both modelled `none`.  The returned list
is the operator input remaining after the consumed prompts. -/
def resolveChangelogPrInteractive (name _contents : String)
    (pullRequests : List PullRequest) (repoOwner repoName : String)
    (host : RepositoryHost) (inputs : List String) :
    Option (Link × List String) :=
  match parseU64 name with
  | some id =>
    match (pullRequests.find? fun pr => pr.id == id).map PullRequest.link with
    | some link =>
      (makePullRequestLink (toString id) link host repoOwner repoName).map
        fun l => (l, inputs)
    | none =>
      match promptRun ynValidator (some "y") "" inputs with
      | none => none
      | some (value, rest) =>
        (makePullRequestLink (toString id) value host repoOwner repoName).map
          fun l => (l, rest)
  | none =>
    match promptRun nonEmptyValidator none "" inputs with
    | none => none
    | some (fullLink, rest) =>
      match host with
      | .GitHub => none
      | .GitLab =>
        match stripLeading fullLink "!" with
        | some id =>
          (makePullRequestLink id fullLink host repoOwner repoName).map
            fun l => (l, rest)
        | none =>
          match promptRun nonEmptyValidator none "" rest with
          | none => none
          | some (shorthand, rest2) =>
            some ({ shorthand := shorthand, full := fullLink }, rest2)
      | .Infer => none

/-- Markdown node events of the document walk in `main`, already reduced to
what the walk inspects: a heading with its level and the text runs of its
directly nested children (the catch-all `todo!()` for non-text heading
children is outside every claim and not modelled), and a list item carrying
its `format_commonmark` re-serialization.  Parsing markdown itself is done
by the external comrak crate. -/
inductive MdNode where
  | heading (level : Nat) (texts : List String)
  | item (text : String)
deriving DecidableEq

/-- One changelog fragment: its resolved link and its node walk. -/
structure Fragment where
  link : Link
  nodes : List MdNode
deriving DecidableEq

/-- The `HashMap<String, (u8, Vec<(String, Link)>)>` of `main`, as an
association list keyed by section name (the source only ever looks a bucket
up by key, so the map's iteration order is irrelevant). -/
abbrev Sections := List (String × Nat × List (String × Link))

/-- `sections.entry(key).or_insert((level, vec![])).1.push(entry)`: append
to an existing bucket (keeping its stored level) or create the bucket. -/
def addItem : Sections → String → Nat → String × Link → Sections
  | [], key, level, entry => [(key, level, [entry])]
  | (k, lvl, items) :: rest, key, level, entry =>
    if k = key then (k, lvl, items ++ [entry]) :: rest
    else (k, lvl, items) :: addItem rest key level entry

/-- Bucket lookup by section name. -/
def lookupSection : Sections → String → Option (Nat × List (String × Link))
  | [], _ => none
  | (k, lvl, items) :: rest, key =>
    if k = key then some (lvl, items) else lookupSection rest key

/-- State threaded through the document walk of `main`: the accumulated
bucket map and the `current_section` cursor.  Both are declared before the
fragment loop in the source, so they persist across fragments. -/
structure AggState where
  sections : Sections
  currentSection : Option (String × Nat)
deriving DecidableEq

/-- One step of the walk in `main`: a heading node replaces the cursor by
its trimmed concatenated text and its level; an item node appends
`(item_text, link)` to the cursor's bucket when the cursor is set and is
otherwise ignored. -/
def processNode (link : Link) (st : AggState) (node : MdNode) : AggState :=
  match node with
  | .heading level texts =>
    { st with currentSection := some (strTrim (String.join texts), level) }
  | .item text =>
    match st.currentSection with
    | some current =>
      { st with sections := addItem st.sections current.1 current.2 (text, link) }
    | none => st

/-- Walk one fragment's nodes with its resolved link. -/
def processFragment (st : AggState) (frag : Fragment) : AggState :=
  frag.nodes.foldl (processNode frag.link) st

/-- Process every fragment in order, starting from the empty map and an
unset cursor, exactly as `main` does. -/
def runFragments (frags : List Fragment) : AggState :=
  frags.foldl processFragment { sections := [], currentSection := none }

/-- Fuel-driven worker for Rust `str::replace`: scan left to right, emit the
replacement at each non-overlapping match of the pattern (replacements are
never rescanned).  The fuel, always supplied as the source length, makes the
recursion structural; the empty-pattern guard never fires at the three call
sites (whose patterns are literal and non-empty). -/
def replaceAux (pat rep : List Char) : Nat → List Char → List Char
  | 0, src => src
  | _ + 1, [] => []
  | fuel + 1, c :: rest =>
    if !pat.isEmpty && pat.isPrefixOf (c :: rest) then
      rep ++ replaceAux pat rep fuel ((c :: rest).drop pat.length)
    else c :: replaceAux pat rep fuel rest

/-- Rust `str::replace` at the `String` boundary. -/
def strReplace (s pat rep : String) : String :=
  String.mk (replaceAux pat.data rep.data s.data.length s.data)

/-- `fn default_config_format`. -/
def defaultConfigFormat : String :=
  "{item} ({link_name})"

/-- Entry text preprocessing in the render loop: trim, strip one leading
`"-"` bullet when present, trim again. -/
def itemText (content : String) : String :=
  let t := strTrim content
  strTrim (match stripLeading t "-" with
    | some rest => rest
    | none => t)

/-- One rendered list line: `"- "` followed by the format template with
`{link_short}`, `{link}` and `{item}` substituted, in the source's order. -/
def formatLine (format : String) (item : String) (link : Link) : String :=
  "- " ++ strReplace (strReplace (strReplace format "{link_short}"
    link.shorthand) "{link}" link.full) "{item}" item

/-- Render-time comparator: ascending `Link.shorthand`
(`lhs.1.shorthand.cmp(&rhs.1.shorthand)`). -/
def entryLe (a b : String × Link) : Bool :=
  decide (a.2.shorthand ≤ b.2.shorthand)

/-- Lexicographic order on `(String, String)` pairs (Rust `Ord` for the
short-link definition list's final `sort`). -/
def pairLe (a b : String × String) : Bool :=
  decide (a.1 < b.1 ∨ (a.1 = b.1 ∧ a.2 ≤ b.2))

/-- Rendering of one requested section name: nothing when no bucket exists;
otherwise the heading line followed by one line per entry after the stable
sort on shorthand, plus the `(shorthand, full)` pairs recorded for the
short-link appendix when that is enabled. -/
def renderSection (format : String) (shortLinks : Bool) (secs : Sections)
    (name : String) : List String × List (String × String) :=
  match lookupSection secs name with
  | none => ([], [])
  | some (level, contents) =>
    let sorted := insSort entryLe contents
    ((String.mk (List.replicate level '#') ++ " " ++ name) ::
        sorted.map (fun e => formatLine format (itemText e.1) e.2),
      if shortLinks then sorted.map (fun e => (e.2.shorthand, e.2.full))
      else [])

/-- The render loop of `main` over the requested section names, carrying the
`enumerate` index: a blank line is printed whenever the index is positive,
before the section (rendered or skipped) is handled. -/
def renderLoop (format : String) (shortLinks : Bool) (secs : Sections) :
    Nat → List String → List String × List (String × String)
  | _, [] => ([], [])
  | i, name :: rest =>
    let here := renderSection format shortLinks secs name
    let tail := renderLoop format shortLinks secs (i + 1) rest
    ((if 0 < i then [""] else []) ++ here.1 ++ tail.1, here.2 ++ tail.2)

/-- Complete standard-output line list of the render phase: the section
loop, then, when any short link was recorded, a blank line and one
`[shorthand]: full` definition per distinct pair sorted lexicographically
(the `HashSet` is modelled by erasing duplicates before the final sort). -/
def renderOutput (format : String) (shortLinks : Bool)
    (sectionNames : List String) (secs : Sections) : List String :=
  let bp := renderLoop format shortLinks secs 0 sectionNames
  let distinctPairs := bp.2.eraseDups
  if distinctPairs.isEmpty then bp.1
  else bp.1 ++ "" ::
    (insSort pairLe distinctPairs).map fun p => "[" ++ p.1 ++ "]: " ++ p.2

/-- Claim-side predicate for C5, following the claim's words: a GitLab
shorthand is a `"!"` prefix followed by (one or more) digits. -/
def matchesGitLabShorthand (s : String) : Bool :=
  ("!".data.isPrefixOf s.data) && !(s.data.drop 1).isEmpty
    && (s.data.drop 1).all Char.isDigit

/-- Claim-side predicate for C6, following the claim's words: in the line
list printed to output, no blank line precedes the first heading line. -/
def noBlankBeforeFirstHeading (lines : List String) : Bool :=
  (lines.takeWhile fun l => !(List.isPrefixOf ['#'] l.data)).all
    fun l => !l.data.isEmpty

/-- Claim-side score for C2, following the claim's words as stated: the sum
ranges only over the words of length greater than one. -/
def guessScoreClaim (name : String) (pr : PullRequest) : ℚ :=
  let words := splitAsciiWs pr.title.data
  let total : Nat :=
    ((words.filter fun word => decide (1 < utf8LenChars word)).map fun word =>
      if containsSub (lowerChars name.data) (lowerChars word)
      then pr.title.utf8ByteSize * 10
      else levenshtein pr.title.data name.data).sum
  let normalizer : Nat := if words.isEmpty then 1 else pr.title.utf8ByteSize
  (total : ℚ) / (normalizer : ℚ)

/-- Claim-side guesser for C2 as stated: rank the requests by descending
`guessScoreClaim` (stably) and keep at most 5; none for an empty catalog. -/
def guessSpecClaim (name : String) (pullRequests : List PullRequest) :
    Option (List PullRequest) :=
  if pullRequests.isEmpty then none
  else
    some ((insSort (fun lhs rhs =>
      decide (guessScoreClaim name rhs ≤ guessScoreClaim name lhs))
      pullRequests).take 5)

/-- Spec-side score for the amended C2: every word contributes; the
`title.len() * 10` bonus applies when the word is longer than one byte and
the case-folded candidate name contains the case-folded word, and the
contribution is the edit distance between title and name otherwise. -/
def guessScoreSpec (name : String) (pr : PullRequest) : ℚ :=
  let words := splitAsciiWs pr.title.data
  let total : Nat :=
    (words.map fun word =>
      if 1 < utf8LenChars word ∧
          containsSub (lowerChars name.data) (lowerChars word) = true
      then pr.title.utf8ByteSize * 10
      else levenshtein pr.title.data name.data).sum
  let normalizer : Nat := if words.isEmpty then 1 else pr.title.utf8ByteSize
  (total : ℚ) / (normalizer : ℚ)

/-- Spec-side guesser for the amended C2: rank the requests by descending
`guessScoreSpec` (stably, as Rust's stable sort does) and keep at most 5;
no suggestions for an empty catalog. -/
def guessSpecAmended (name : String) (pullRequests : List PullRequest) :
    Option (List PullRequest) :=
  if pullRequests.isEmpty then none
  else
    some ((insSort (fun lhs rhs =>
      decide (guessScoreSpec name rhs ≤ guessScoreSpec name lhs))
      pullRequests).take 5)

theorem orderedIns_perm (le : α → α → Bool) (a : α) :
    ∀ l : List α, (orderedIns le a l).Perm (a :: l)
  | [] => List.Perm.refl _
  | b :: l => by
    unfold orderedIns
    by_cases h : le a b = true
    · rw [if_pos h]
    · rw [if_neg h]
      exact ((orderedIns_perm le a l).cons b).trans (List.Perm.swap a b l)

theorem insSort_perm (le : α → α → Bool) : ∀ l : List α, (insSort le l).Perm l
  | [] => List.Perm.refl _
  | a :: l =>
    (orderedIns_perm le a (insSort le l)).trans ((insSort_perm le l).cons a)

theorem pairwise_orderedIns (le : α → α → Bool)
    (htot : ∀ a b, le a b = false → le b a = true)
    (htrans : ∀ a b c, le a b = true → le b c = true → le a c = true)
    (a : α) : ∀ l : List α, List.Pairwise (fun x y => le x y = true) l →
      List.Pairwise (fun x y => le x y = true) (orderedIns le a l)
  | [], _ => by simp [orderedIns]
  | b :: l, hp => by
    rcases List.pairwise_cons.mp hp with ⟨hb, hl⟩
    unfold orderedIns
    by_cases h : le a b = true
    · rw [if_pos h]
      refine List.pairwise_cons.mpr ⟨?_, hp⟩
      intro x hx
      rcases List.mem_cons.mp hx with rfl | hx
      · exact h
      · exact htrans a b x h (hb x hx)
    · rw [if_neg h]
      refine List.pairwise_cons.mpr
        ⟨?_, pairwise_orderedIns le htot htrans a l hl⟩
      intro x hx
      rcases List.mem_cons.mp ((orderedIns_perm le a l).mem_iff.mp hx) with
        heq | hx'
      · rw [heq]
        exact htot a b (Bool.eq_false_iff.mpr h)
      · exact hb x hx'

theorem pairwise_insSort (le : α → α → Bool)
    (htot : ∀ a b, le a b = false → le b a = true)
    (htrans : ∀ a b c, le a b = true → le b c = true → le a c = true) :
    ∀ l : List α, List.Pairwise (fun x y => le x y = true) (insSort le l)
  | [] => List.Pairwise.nil
  | a :: l =>
    pairwise_orderedIns le htot htrans a (insSort le l)
      (pairwise_insSort le htot htrans l)

theorem filter_orderedIns_pos (le : α → α → Bool) (p : α → Bool) (a : α)
    (hpa : p a = true) (himp : ∀ b, p b = true → le a b = true) :
    ∀ l : List α, (orderedIns le a l).filter p = a :: l.filter p
  | [] => by simp [orderedIns, hpa]
  | b :: l => by
    unfold orderedIns
    by_cases h : le a b = true
    · rw [if_pos h]
      simp [List.filter_cons, hpa]
    · rw [if_neg h]
      have hpb : p b = false := by
        cases hpb : p b
        · rfl
        · exact absurd (himp b hpb) h
      simp [List.filter_cons, hpb,
        filter_orderedIns_pos le p a hpa himp l]

theorem filter_orderedIns_neg (le : α → α → Bool) (p : α → Bool) (a : α)
    (hpa : p a = false) :
    ∀ l : List α, (orderedIns le a l).filter p = l.filter p
  | [] => by simp [orderedIns, hpa]
  | b :: l => by
    unfold orderedIns
    by_cases h : le a b = true
    · rw [if_pos h]
      simp [List.filter_cons, hpa]
    · rw [if_neg h]
      simp [List.filter_cons, filter_orderedIns_neg le p a hpa l]

theorem filter_insSort (le : α → α → Bool) (p : α → Bool)
    (hcls : ∀ a b, p a = true → p b = true → le a b = true) :
    ∀ l : List α, (insSort le l).filter p = l.filter p
  | [] => rfl
  | a :: l => by
    unfold insSort
    cases hpa : p a
    · rw [filter_orderedIns_neg le p a hpa, filter_insSort le p hcls l]
      simp [List.filter_cons, hpa]
    · rw [filter_orderedIns_pos le p a hpa (fun b hb => hcls a b hpa hb),
        filter_insSort le p hcls l]
      simp [List.filter_cons, hpa]

theorem sorted_perm_eq (le : α → α → Bool) :
    ∀ l₁ l₂ : List α, List.Pairwise (fun x y => le x y = true) l₁ →
      List.Pairwise (fun x y => le x y = true) l₂ → l₁.Perm l₂ →
      (∀ a ∈ l₁, ∀ b ∈ l₁, le a b = true → le b a = true → a = b) → l₁ = l₂
  | [], _, _, _, hp, _ => hp.symm.eq_nil.symm
  | a :: t₁, [], _, _, hp, _ => absurd hp.eq_nil (List.cons_ne_nil a t₁)
  | a :: t₁, b :: t₂, h₁, h₂, hp, hanti => by
    have hab : a = b := by
      rcases List.mem_cons.mp (hp.subset (List.mem_cons_self a t₁)) with
        h | hat₂
      · exact h
      · rcases List.mem_cons.mp (hp.symm.subset (List.mem_cons_self b t₂)) with
          h | hbt₁
        · exact h.symm
        · exact hanti a (List.mem_cons_self a t₁) b
            (List.mem_cons_of_mem a hbt₁)
            ((List.pairwise_cons.mp h₁).1 b hbt₁)
            ((List.pairwise_cons.mp h₂).1 a hat₂)
    subst hab
    have ht : t₁.Perm t₂ := hp.cons_inv
    rw [sorted_perm_eq le t₁ t₂ (List.pairwise_cons.mp h₁).2
      (List.pairwise_cons.mp h₂).2 ht
      (fun x hx y hy => hanti x (List.mem_cons_of_mem a hx) y
        (List.mem_cons_of_mem a hy))]

theorem orderedIns_map (g : α → β) (leb : β → β → Bool) (a : α) :
    ∀ l : List α, orderedIns leb (g a) (l.map g) =
      (orderedIns (fun x y => leb (g x) (g y)) a l).map g
  | [] => rfl
  | b :: l => by
    simp only [List.map_cons]
    unfold orderedIns
    by_cases h : leb (g a) (g b) = true
    · rw [if_pos h, if_pos h]
      simp
    · rw [if_neg h, if_neg h]
      simp [orderedIns_map g leb a l]

theorem insSort_map (g : α → β) (leb : β → β → Bool) :
    ∀ l : List α, insSort leb (l.map g) =
      (insSort (fun x y => leb (g x) (g y)) l).map g
  | [] => rfl
  | a :: l => by
    simp only [List.map_cons]
    unfold insSort
    rw [insSort_map g leb l, orderedIns_map]

theorem replaceAux_no_match (pat rep : List Char) :
    ∀ (fuel : Nat) (src : List Char), containsSub src pat = false →
      replaceAux pat rep fuel src = src
  | 0, _, _ => rfl
  | _ + 1, [], _ => rfl
  | fuel + 1, c :: rest, h => by
    rw [containsSub, Bool.or_eq_false_iff] at h
    unfold replaceAux
    rw [h.1, Bool.and_false, if_neg (by simp)]
    exact congrArg (c :: ·) (replaceAux_no_match pat rep fuel rest h.2)

/-- C1: for fragment stem `"99"` with no catalog entry for id 99, the
resolver triggers the confirmation prompt, and an empty operator answer
(accepting the default `"y"`) produces a `Link` whose full link is derived
from the id — but whose shorthand is the prompt's answer `"y"`, not the
claimed `"!99"`: the source passes the y/n confirmation answer itself to
`make_pull_request_link` as the link text. -/
theorem c1_unknown_id_default_answer_becomes_shorthand :
    resolveChangelogPrInteractive "99" "" [] "owner" "repo" .GitLab [""] =
      some ({ shorthand := "y",
              full := "https://gitlab.com/owner/repo/-/merge_requests/99" },
        []) := by
  decide

/-- C3: the prompt loop is claimed to accept the first valid line after an
invalid one, but the source never clears its input buffer between
iterations (`read_line` appends), so after the invalid answer `"x"` the
accumulated trimmed buffer is `"x\ny"`, which the y/n validator rejects —
the loop never returns (modelled `none`) even though an entered `"y"` on
its own is accepted immediately. -/
theorem c3_buffer_accumulation_blocks_retry :
    promptRun ynValidator (some "y") "" ["x", "y"] = none ∧
    promptRun ynValidator (some "y") "" ["y"] = some ("y", []) ∧
    promptRun ynValidator (some "y") "" ["x", "y", "y", "n"] = none := by
  decide

/-- C4 counterexample: the `current_section` cursor is declared outside the
fragment loop, so the pre-heading item `"- y"` of the second fragment is
appended to the bucket `"A"` opened by the first fragment instead of being
dropped; the claim said it is dropped regardless of earlier fragments. -/
theorem c4_counterexample_cursor_leaks_across_fragments :
    lookupSection (runFragments
        [⟨⟨"!1", "f1"⟩, [.heading 2 ["A"], .item "- x"]⟩,
         ⟨⟨"!2", "f2"⟩, [.item "- y"]⟩]).sections "A" =
      some (2, [("- x", ⟨"!1", "f1"⟩), ("- y", ⟨"!2", "f2"⟩)]) := by
  decide

/-- C4 (amended): list items are dropped exactly while the section cursor
is unset; since the cursor persists across fragments, a fragment's
pre-heading items are dropped only when no heading has been seen anywhere
earlier in the run.  Formally: from any state with an unset cursor,
processing a list of item nodes leaves the state unchanged. -/
theorem c4_amended_items_dropped_while_cursor_unset (link : Link)
    (st : AggState) (hcur : st.currentSection = none) (pre : List MdNode)
    (hpre : ∀ n ∈ pre, ∃ text, n = MdNode.item text) :
    pre.foldl (processNode link) st = st := by
  induction pre with
  | nil => rfl
  | cons n rest ih =>
    obtain ⟨text, rfl⟩ := hpre n (List.mem_cons_self n rest)
    rw [List.foldl_cons, show processNode link st (MdNode.item text) = st by
      simp [processNode, hcur]]
    exact ih fun m hm => hpre m (List.mem_cons_of_mem _ hm)

/-- Witness for the amended C4 at a concrete input. -/
theorem c4_amended_items_dropped_while_cursor_unset_witness :
    List.foldl (processNode ⟨"!2", "f2"⟩) ⟨[], none⟩ [MdNode.item "- y"] =
      (⟨[], none⟩ : AggState) :=
  c4_amended_items_dropped_while_cursor_unset ⟨"!2", "f2"⟩ ⟨[], none⟩ rfl
    [MdNode.item "- y"] (by
      intro n hn
      simp only [List.mem_singleton] at hn
      exact ⟨"- y", hn⟩)

/-- C7: a fragment stem that parses as an id with a catalog match resolves
to that entry's shorthand link without consuming any operator input, and on
the GitLab host the full link is `https://gitlab.com/` followed by
`{owner}`, `{name}`, the merge-requests path and the id. -/
theorem c7_numeric_exact_match (name contents : String) (id : Nat)
    (pr : PullRequest) (catalog : List PullRequest)
    (repoOwner repoName : String) (inputs : List String)
    (hparse : parseU64 name = some id)
    (hfind : catalog.find? (fun p => p.id == id) = some pr) :
    resolveChangelogPrInteractive name contents catalog repoOwner repoName
        .GitLab inputs =
      some ({ shorthand := pr.link,
              full := "https://gitlab.com/" ++ repoOwner ++ "/" ++
                repoName ++ "/-/merge_requests/" ++ toString id }, inputs) := by
  simp [resolveChangelogPrInteractive, hparse, hfind, makePullRequestLink]

/-- Witness for C7 at the spec's own example
`{id: 42, shorthand: "!42", title: "Fix bug"}` and fragment `42.md`. -/
theorem c7_numeric_exact_match_witness :
    resolveChangelogPrInteractive "42" "" [⟨42, "!42", "Fix bug"⟩] "owner"
        "repo" .GitLab [] =
      some ({ shorthand := "!42",
              full := "https://gitlab.com/owner/repo/-/merge_requests/42" },
        []) :=
  (c7_numeric_exact_match "42" "" 42 ⟨42, "!42", "Fix bug"⟩
    [⟨42, "!42", "Fix bug"⟩] "owner" "repo" [] (by decide)
    (by decide)).trans (by decide)

/-- C9: bucket identity is the trimmed heading text, compared
case-sensitively.  For two fragments each consisting of one heading and one
item, the two items share one bucket exactly when the trimmed heading texts
are equal (so `"Fixed"` and `" Fixed "` merge, while `"fixed"` is a
distinct bucket), and a merged bucket keeps the first heading's level. -/
theorem c9_bucket_identity_trimmed_case_sensitive (ts₁ ts₂ : List String)
    (lvl₁ lvl₂ : Nat) (i₁ i₂ : String) (l₁ l₂ : Link) :
    lookupSection (runFragments
        [⟨l₁, [.heading lvl₁ ts₁, .item i₁]⟩,
         ⟨l₂, [.heading lvl₂ ts₂, .item i₂]⟩]).sections
        (strTrim (String.join ts₁)) =
      (if strTrim (String.join ts₂) = strTrim (String.join ts₁)
       then some (lvl₁, [(i₁, l₁), (i₂, l₂)])
       else some (lvl₁, [(i₁, l₁)])) ∧
    lookupSection (runFragments
        [⟨l₁, [.heading lvl₁ ts₁, .item i₁]⟩,
         ⟨l₂, [.heading lvl₂ ts₂, .item i₂]⟩]).sections
        (strTrim (String.join ts₂)) =
      (if strTrim (String.join ts₂) = strTrim (String.join ts₁)
       then some (lvl₁, [(i₁, l₁), (i₂, l₂)])
       else some (lvl₂, [(i₂, l₂)])) := by
  by_cases h : strTrim (String.join ts₂) = strTrim (String.join ts₁)
  · constructor
    · simp [runFragments, processFragment, processNode, addItem,
        lookupSection, h]
    · simp [runFragments, processFragment, processNode, addItem,
        lookupSection, h]
  · have h' : ¬ strTrim (String.join ts₁) = strTrim (String.join ts₂) :=
      fun e => h e.symm
    constructor
    · simp [runFragments, processFragment, processNode, addItem,
        lookupSection, h, h']
    · simp [runFragments, processFragment, processNode, addItem,
        lookupSection, h, h']

/-- C5 counterexample: in the non-numeric GitLab branch the source only
tests `strip_prefix("!")`, never that digits follow, so the entered link
`"!abc"` — which does not match the claimed shorthand syntax of `"!"`
followed by digits — is still treated as an id (no second prompt; the full
link ends in `abc`), refuting the claimed "exactly when". -/
theorem c5_counterexample_bang_without_digits_treated_as_id :
    resolveChangelogPrInteractive "feature" "" [] "owner" "repo" .GitLab
        ["!abc"] =
      some ({ shorthand := "!abc",
              full := "https://gitlab.com/owner/repo/-/merge_requests/abc" },
        []) ∧
    matchesGitLabShorthand "!abc" = false := by
  decide

/-- C5 (amended): in the non-numeric GitLab branch, the entered link string
is treated as a request id exactly when it starts with `"!"` (whatever
follows, the remainder after the `"!"` becomes the id in the derived full
link and the entered string itself the shorthand); otherwise it is the bare
full link and a second non-empty prompt supplies the shorthand name. -/
theorem c5_amended_id_branch_iff_bang_start (name contents : String)
    (catalog : List PullRequest) (repoOwner repoName s : String)
    (inputs rest : List String) (hname : parseU64 name = none)
    (hprompt : promptRun nonEmptyValidator none "" inputs = some (s, rest)) :
    resolveChangelogPrInteractive name contents catalog repoOwner repoName
        .GitLab inputs =
      if "!".data.isPrefixOf s.data then
        some ({ shorthand := s,
                full := "https://gitlab.com/" ++ repoOwner ++ "/" ++
                  repoName ++ "/-/merge_requests/" ++
                  String.mk (s.data.drop 1) }, rest)
      else
        (promptRun nonEmptyValidator none "" rest).map fun sr =>
          ({ shorthand := sr.1, full := s }, sr.2) := by
  by_cases h : "!".data.isPrefixOf s.data = true
  · simp [resolveChangelogPrInteractive, hname, hprompt, stripLeading, h,
      makePullRequestLink]
  · simp only [resolveChangelogPrInteractive, hname, hprompt, stripLeading,
      h, if_neg, Bool.not_eq_true, if_false]
    cases hr : promptRun nonEmptyValidator none "" rest with
    | none => rfl
    | some sr => rfl

/-- Witness for the amended C5: entering `"!30"` resolves to the id `30`. -/
theorem c5_amended_id_branch_iff_bang_start_witness :
    resolveChangelogPrInteractive "feature" "" [] "owner" "repo" .GitLab
        ["!30"] =
      some ({ shorthand := "!30",
              full := "https://gitlab.com/owner/repo/-/merge_requests/30" },
        []) :=
  (c5_amended_id_branch_iff_bang_start "feature" "" [] "owner" "repo" "!30"
    ["!30"] [] (by decide) (by decide)).trans (by decide)

theorem renderLoop_pos (format : String) (shortLinks : Bool)
    (secs : Sections) :
    ∀ (names : List String) (i : Nat), 0 < i →
      (renderLoop format shortLinks secs i names).1 =
        (names.map fun m =>
          "" :: (renderSection format shortLinks secs m).1).flatten
  | [], _, _ => rfl
  | n :: rest, i, hi => by
    simp only [renderLoop, List.map_cons, List.flatten]
    rw [if_pos hi,
      renderLoop_pos format shortLinks secs rest (i + 1) (Nat.succ_pos i)]
    rfl

/-- C6 counterexample: with requested names `["Missing", "Added"]` and a
bucket only for `"Added"`, the render loop prints its separator blank line
for every positive index even when the previous name was skipped, so the
output starts with a blank line that precedes the first heading printed —
refuting the claim that no blank line ever precedes the first rendered
heading. -/
theorem c6_counterexample_blank_before_first_rendered_heading :
    renderOutput defaultConfigFormat false ["Missing", "Added"]
        [("Added", 2, [("- x", ⟨"!1", "u"⟩)])] =
      ["", "## Added", "- x ({link_name})"] ∧
    noBlankBeforeFirstHeading (renderOutput defaultConfigFormat false
        ["Missing", "Added"] [("Added", 2, [("- x", ⟨"!1", "u"⟩)])]) =
      false := by
  decide

/-- C6 (amended): the renderer emits its blank separator line before every
requested section name except the first requested one, whether or not a
bucket exists for the skipped or rendered names: the loop's line output is
the first name's section lines (no leading blank) followed, for each later
requested name, by one blank line and that name's section lines (which are
empty for skipped names — hence a blank line does precede the first
rendered heading whenever an earlier requested name had no bucket). -/
theorem c6_amended_blank_per_requested_name (format : String)
    (shortLinks : Bool) (secs : Sections) (names : List String) :
    (renderLoop format shortLinks secs 0 names).1 =
      match names with
      | [] => []
      | n :: rest =>
        (renderSection format shortLinks secs n).1 ++
          (rest.map fun m =>
            "" :: (renderSection format shortLinks secs m).1).flatten := by
  cases names with
  | nil => rfl
  | cons n rest =>
    simp only [renderLoop]
    rw [if_neg (by simp), renderLoop_pos format shortLinks secs rest 1
      Nat.one_pos]
    rfl

/-- C8: within a rendered bucket the entries are the stable sort of the
insertion sequence by ascending `Link.shorthand`: the sorted list is
pairwise ordered by shorthand, entries with any fixed shorthand keep their
insertion order (the filter by that shorthand is unchanged), and whenever
entries with equal shorthands are identical — ties only between equal
entries — any two insertion orders that are permutations of one another
render identically, making the result independent of file-processing
order. -/
theorem c8_bucket_sorted_stable_order_independent
    (l : List (String × Link)) :
    List.Pairwise (fun a b => a.2.shorthand ≤ b.2.shorthand)
        (insSort entryLe l) ∧
    (∀ s, (insSort entryLe l).filter (fun e => e.2.shorthand == s) =
        l.filter (fun e => e.2.shorthand == s)) ∧
    ∀ l' : List (String × Link), l.Perm l' →
      (∀ a ∈ l, ∀ b ∈ l, a.2.shorthand = b.2.shorthand → a = b) →
      insSort entryLe l = insSort entryLe l' := by
  have htot : ∀ a b : String × Link, entryLe a b = false →
      entryLe b a = true := by
    intro a b h
    rw [entryLe, decide_eq_false_iff_not] at h
    rw [entryLe, decide_eq_true_eq]
    exact le_of_not_le h
  have htrans : ∀ a b c : String × Link, entryLe a b = true →
      entryLe b c = true → entryLe a c = true := by
    intro a b c hab hbc
    rw [entryLe, decide_eq_true_eq] at hab hbc ⊢
    exact le_trans hab hbc
  refine ⟨?_, ?_, ?_⟩
  · exact (pairwise_insSort entryLe htot htrans l).imp
      fun h => of_decide_eq_true h
  · intro s
    apply filter_insSort
    intro a b ha hb
    rw [entryLe, decide_eq_true_eq]
    rw [beq_iff_eq] at ha hb
    rw [ha, hb]
  · intro l' hperm hdist
    apply sorted_perm_eq entryLe
    · exact pairwise_insSort entryLe htot htrans l
    · exact pairwise_insSort entryLe htot htrans l'
    · exact (insSort_perm entryLe l).trans
        (hperm.trans (insSort_perm entryLe l').symm)
    · intro a ha b hb hab hba
      exact hdist a ((insSort_perm entryLe l).mem_iff.mp ha) b
        ((insSort_perm entryLe l).mem_iff.mp hb)
        (le_antisymm (of_decide_eq_true hab) (of_decide_eq_true hba))

/-- Witness for C8: two permuted insertion orders with distinct shorthands
sort identically. -/
theorem c8_bucket_sorted_stable_order_independent_witness :
    insSort entryLe [("i1", ⟨"!2", "f2"⟩), ("i2", ⟨"!1", "f1"⟩)] =
      insSort entryLe [("i2", ⟨"!1", "f1"⟩), ("i1", ⟨"!2", "f2"⟩)] :=
  (c8_bucket_sorted_stable_order_independent
    [("i1", ⟨"!2", "f2"⟩), ("i2", ⟨"!1", "f1"⟩)]).2.2
    [("i2", ⟨"!1", "f1"⟩), ("i1", ⟨"!2", "f2"⟩)] (by decide) (by decide)

theorem strData_append (s t : String) : (s ++ t).data = s.data ++ t.data := by
  cases s
  cases t
  rfl

theorem strExt {s t : String} (h : s.data = t.data) : s = t := by
  cases s
  cases t
  exact congrArg String.mk h

theorem replaceAux_head_match (pat rep tail : List Char) (hpat : pat ≠ [])
    (hno : containsSub tail pat = false) (fuel : Nat) :
    replaceAux pat rep (fuel + 1) (pat ++ tail) = rep ++ tail := by
  cases pat with
  | nil => exact absurd rfl hpat
  | cons p ps =>
    rw [List.cons_append]
    unfold replaceAux
    have hpre : (p :: ps).isPrefixOf (p :: (ps ++ tail)) = true := by
      rw [List.isPrefixOf_iff_prefix, ← List.cons_append]
      exact List.prefix_append (p :: ps) tail
    rw [hpre]
    simp only [List.isEmpty_cons, Bool.not_false, Bool.and_true, if_true]
    rw [← List.cons_append, List.drop_left,
      replaceAux_no_match _ _ _ _ hno]

theorem replace_default_linkshort (sh : String) :
    strReplace defaultConfigFormat "{link_short}" sh = defaultConfigFormat := by
  unfold strReplace
  rw [replaceAux_no_match _ _ _ _ (by decide)]

theorem replace_default_link (full : String) :
    strReplace defaultConfigFormat "{link}" full = defaultConfigFormat := by
  unfold strReplace
  rw [replaceAux_no_match _ _ _ _ (by decide)]

theorem replace_default_item (item : String) :
    strReplace defaultConfigFormat "{item}" item =
      item ++ " ({link_name})" := by
  unfold strReplace
  rw [show defaultConfigFormat.data =
    "{item}".data ++ " ({link_name})".data from rfl]
  rw [show ("{item}".data ++ " ({link_name})".data).length = 19 + 1 from rfl]
  rw [replaceAux_head_match _ _ _ (by decide) (by decide) 19]
  apply strExt
  rw [strData_append]

/-- C10: with no config file the format template defaults to
`"{item} ({link_name})"`, and since the renderer only substitutes
`{link_short}`, `{link}` and `{item}`, every list line rendered under the
default template keeps the literal text `({link_name})` unsubstituted. -/
theorem c10_default_template_residue (item shorthand full : String) :
    defaultConfigFormat = "{item} ({link_name})" ∧
    ∃ a b : String,
      formatLine defaultConfigFormat item ⟨shorthand, full⟩ =
        a ++ "({link_name})" ++ b := by
  refine ⟨rfl, "- " ++ item ++ " ", "", ?_⟩
  unfold formatLine
  rw [replace_default_linkshort, replace_default_link, replace_default_item]
  apply strExt
  simp only [strData_append, List.append_assoc, List.append_nil]
  rfl

theorem insSort_pair (le : α → α → Bool) (a b : α) (h : le a b = true) :
    insSort le [a, b] = [a, b] := by
  simp [insSort, orderedIns, h]

theorem insSort_pair_neg (le : α → α → Bool) (a b : α) (h : le a b = false) :
    insSort le [a, b] = [b, a] := by
  simp [insSort, orderedIns, h]

theorem guessCost_eq_spec (name : String) (pr : PullRequest) :
    guessCost name pr = guessScoreSpec name pr := by
  simp only [guessCost, guessScoreSpec]
  congr 1
  norm_cast
  refine congrArg List.sum (List.map_congr_left ?_)
  intro word _
  by_cases hl : 1 < utf8LenChars word
  · by_cases hc : containsSub (lowerChars name.data) (lowerChars word) = true
    · simp [hl, hc]
    · simp [hl, hc]
  · simp [hl]

/-- C2 (amended): the Fuzzy Guesser is the claimed scorer-and-ranker except
that the length-greater-than-one test only gates the containment bonus:
every whitespace word of the title contributes, a word of length at most
one contributing the edit distance between title and candidate name (it is
not skipped).  With that amendment the guesser equals, for every candidate
name and catalog, the spec-side ranker: per-request score as in
`guessScoreSpec`, stable descending ranking, at most 5 suggestions, and no
suggestions for an empty catalog. -/
theorem c2_amended_guesser_refinement (name : String)
    (pullRequests : List PullRequest) :
    guessPullRequest name pullRequests = guessSpecAmended name pullRequests := by
  simp only [guessPullRequest, guessSpecAmended]
  have hemp : (pullRequests.enum.map fun ipr =>
      (ipr, guessCost name ipr.2)).isEmpty = pullRequests.isEmpty := by
    cases pullRequests with
    | nil => rfl
    | cons p l => rfl
  rw [hemp]
  by_cases he : pullRequests.isEmpty = true
  · rw [if_pos he, if_pos he]
  · rw [if_neg he, if_neg he]
    congr 1
    rw [show (fun ipr : Nat × PullRequest => (ipr, guessCost name ipr.2)) =
      (fun ipr : Nat × PullRequest => (ipr, guessScoreSpec name ipr.2)) from
      funext fun ipr => by rw [guessCost_eq_spec]]
    rw [insSort_map
      (fun ipr : Nat × PullRequest => (ipr, guessScoreSpec name ipr.2))
      (fun lhs rhs => decide (rhs.2 ≤ lhs.2)) pullRequests.enum]
    rw [← List.map_take, List.map_map]
    conv_rhs => rw [← List.enum_map_snd pullRequests]
    rw [insSort_map Prod.snd
      (fun lhs rhs =>
        decide (guessScoreSpec name rhs ≤ guessScoreSpec name lhs))
      pullRequests.enum]
    rw [← List.map_take]
    rfl

/-- C2 counterexample: with candidate name `"x"` and catalog titles `"a"`
(one word of length 1) and `"xy"`, the source sums an edit-distance
contribution for the length-1 word `"a"` (score 1), while the claim as
stated skips such words (score 0), so the two rankers return the two
requests in opposite orders. -/
theorem c2_counterexample_short_words_not_skipped :
    guessPullRequest "x" [⟨1, "!1", "a"⟩, ⟨2, "!2", "xy"⟩] =
      some [⟨1, "!1", "a"⟩, ⟨2, "!2", "xy"⟩] ∧
    guessSpecClaim "x" [⟨1, "!1", "a"⟩, ⟨2, "!2", "xy"⟩] =
      some [⟨2, "!2", "xy"⟩, ⟨1, "!1", "a"⟩] := by
  have hc1 : guessCost "x" ⟨1, "!1", "a"⟩ = 1 := by
    rw [show guessCost "x" ⟨1, "!1", "a"⟩ = ((1 : Nat) : ℚ) / ((1 : Nat) : ℚ)
      from rfl]
    norm_num
  have hc2 : guessCost "x" ⟨2, "!2", "xy"⟩ = 1 / 2 := by
    rw [show guessCost "x" ⟨2, "!2", "xy"⟩ = ((1 : Nat) : ℚ) / ((2 : Nat) : ℚ)
      from rfl]
    norm_num
  have hs1 : guessScoreClaim "x" ⟨1, "!1", "a"⟩ = 0 := by
    rw [show guessScoreClaim "x" ⟨1, "!1", "a"⟩ =
      ((0 : Nat) : ℚ) / ((1 : Nat) : ℚ) from rfl]
    norm_num
  have hs2 : guessScoreClaim "x" ⟨2, "!2", "xy"⟩ = 1 / 2 := by
    rw [show guessScoreClaim "x" ⟨2, "!2", "xy"⟩ =
      ((1 : Nat) : ℚ) / ((2 : Nat) : ℚ) from rfl]
    norm_num
  constructor
  · rw [show guessPullRequest "x" [⟨1, "!1", "a"⟩, ⟨2, "!2", "xy"⟩] =
      some (((insSort (fun lhs rhs => decide (rhs.2 ≤ lhs.2))
        [((0, ⟨1, "!1", "a"⟩), guessCost "x" ⟨1, "!1", "a"⟩),
         ((1, ⟨2, "!2", "xy"⟩), guessCost "x" ⟨2, "!2", "xy"⟩)]).take 5).map
        fun c => c.1.2) from rfl]
    rw [insSort_pair _ _ _ (by
      simp only [decide_eq_true_eq]
      rw [hc1, hc2]
      norm_num)]
    rfl
  · rw [show guessSpecClaim "x" [⟨1, "!1", "a"⟩, ⟨2, "!2", "xy"⟩] =
      some ((insSort (fun lhs rhs =>
        decide (guessScoreClaim "x" rhs ≤ guessScoreClaim "x" lhs))
        [⟨1, "!1", "a"⟩, ⟨2, "!2", "xy"⟩]).take 5) from rfl]
    rw [insSort_pair_neg _ _ _ (by
      simp only [decide_eq_false_iff_not]
      rw [hs1, hs2]
      norm_num)]
    rfl

end Mergelog
